import Mathlib

/-!
Shallow embedding of the coordinate, filtering and aggregation logic of the
minecraft block finder (src/main.rs), together with theorems settling the
frozen claims about it.

Conventions of the embedding:
  - Rust i32 arithmetic is modelled by unbounded Int.  The design document
    declares all coordinate arithmetic to be signed 32-bit with overflow
    behaviour undefined and callers obliged to stay in range, so the
    embedding works at mathematical integers.
  - The anvil decode step is an external library boundary; a region is
    therefore taken as the list of its already decoded chunks.
  - Console printing is ignored; the functions return the values the Rust
    code returns.
-/

namespace BlockFinder

/-! ### The filename regex, src/main.rs lines 18 to 26

The Rust code matches the pattern consisting of: literal r, literal dot,
capture group one matching an optional minus sign and one or more digits,
a single arbitrary character (the second dot of the pattern is unescaped,
so it matches any character except a newline), capture group two matching
an optional minus sign and one or more digits, then the literal text .mca .
The regex engine uses leftmost-first semantics with greedy repetition, and
the pattern is unanchored, so the leftmost starting position at which a
backtracking match exists wins.  The functions below reproduce exactly
that search: only capture group one needs genuine backtracking (over the
number of digits it keeps), because every other choice point is followed
by a pattern element that can never match the character it would give up. -/

/-- Test whether a list starts with the given leading segment. -/
def leadsWith : List Char → List Char → Bool
  | [], _ => true
  | _ :: _, [] => false
  | a :: as, b :: bs => a == b && leadsWith as bs

/-- Match one or more digits followed by the literal text .mca and return
the digits.  Taking the maximal run of digits is complete: with fewer
digits the next character is still a digit and can never equal the dot. -/
def matchDigitsDot (s : List Char) : Option (List Char) :=
  let digs := s.takeWhile Char.isDigit
  if digs.isEmpty then none
  else if leadsWith ['.', 'm', 'c', 'a'] (s.dropWhile Char.isDigit) then some digs
  else none

/-- Match capture group two, an optional minus sign then digits, followed
by the literal text .mca ; returns the text of the capture group. -/
def matchTail2 : List Char → Option (List Char)
  | [] => none
  | c :: rest =>
    if c = '-' then (matchDigitsDot rest).map (fun ds => '-' :: ds)
    else matchDigitsDot (c :: rest)

/-- Continuation after capture group one: one arbitrary non-newline
character, then capture group two and the closing literal. -/
def contAfterG1 : List Char → Option (List Char)
  | [] => none
  | c :: rest => if c = '\n' then none else matchTail2 rest

/-- Greedy backtracking over how many digits capture group one keeps:
try the full run of digits first, then ever shorter nonempty runs.
Returns the digits kept by group one and the text of group two. -/
def tryG1 (digs rest : List Char) : Option (List Char × List Char) :=
  (List.range digs.length).findSome? (fun j =>
    (contAfterG1 (digs.drop (digs.length - j) ++ rest)).map
      (fun c2 => (digs.take (digs.length - j), c2)))

/-- Match capture group one (optional minus sign, one or more digits) and
everything after it. -/
def matchG1 (s : List Char) : Option (List Char × List Char) :=
  match s with
  | [] => none
  | c :: s2 =>
    if c = '-' then
      let digs := s2.takeWhile Char.isDigit
      if digs.isEmpty then none
      else (tryG1 digs (s2.dropWhile Char.isDigit)).map (fun p => ('-' :: p.1, p.2))
    else
      let digs := (c :: s2).takeWhile Char.isDigit
      if digs.isEmpty then none
      else tryG1 digs ((c :: s2).dropWhile Char.isDigit)

/-- Attempt a match of the whole pattern anchored at the head of the list. -/
def matchAt : List Char → Option (List Char × List Char)
  | [] => none
  | [_] => none
  | c1 :: c2 :: s1 => if c1 = 'r' && c2 = '.' then matchG1 s1 else none

/-- Unanchored search: return the captures of the match at the leftmost
starting position admitting one. -/
def searchMatch : List Char → Option (List Char × List Char)
  | [] => none
  | c :: rest =>
    match matchAt (c :: rest) with
    | some p => some p
    | none => searchMatch rest

/-! ### Integer parsing, as performed by parse in the Rust code -/

/-- Numeric value of a run of decimal digits. -/
def digitsToNat (l : List Char) : Nat :=
  l.foldl (fun acc c => acc * 10 + (c.toNat - 48)) 0

/-- Parse a signed 32-bit integer from the text of a capture group of shape
optional minus sign then digits, failing outside the i32 range.  The Rust
i32 parser accepts exactly this shape (and an irrelevant plus sign) with a
checked range. -/
def parseSignedI32 (s : List Char) : Option Int :=
  match s with
  | '-' :: ds =>
    if ds.isEmpty then none
    else if ds.all Char.isDigit then
      if -(2 ^ 31) ≤ -(digitsToNat ds : Int) then some (-(digitsToNat ds : Int)) else none
    else none
  | ds =>
    if ds.isEmpty then none
    else if ds.all Char.isDigit then
      if (digitsToNat ds : Int) ≤ 2 ^ 31 - 1 then some (digitsToNat ds : Int) else none
    else none

/-- Rust function region_coordinates, src/main.rs lines 18 to 26: run the
regex over the filename, parse the two captures, scale by 32 * 16. -/
def region_coordinates (filename : String) : Except String (Int × Int) :=
  match searchMatch filename.data with
  | none => Except.error "Region file must be in the format r.X.Z.mca"
  | some (c1, c2) =>
    match parseSignedI32 c1, parseSignedI32 c2 with
    | some x, some z => Except.ok (x * 32 * 16, z * 32 * 16)
    | _, _ => Except.error "integer in filename out of range"

/-! ### The chunk scan, src/main.rs lines 28 to 83 -/

/-- Substring containment on character lists, the behaviour of the Rust
str contains method with a string pattern. -/
def containsSub (needle : List Char) : List Char → Bool
  | [] => leadsWith needle []
  | c :: rest => leadsWith needle (c :: rest) || containsSub needle rest

/-- Test whether the string hay contains the string needle, as in the Rust
expression block.name().contains(block_name). -/
def strContains (hay needle : String) : Bool :=
  containsSub needle.data hay.data

/-- A decoded chunk as exposed by the external anvil decoder: local chunk
coordinates inside the region, the generation status string, the start of
the vertical range, and the linearly indexed block names. -/
structure DecodedChunk where
  x : Nat
  z : Nat
  status : String
  yStart : Int
  blocks : List String
deriving DecidableEq

/-- Rust struct BlockResults, src/main.rs lines 13 to 16. -/
structure BlockResults where
  chunk : Int × Int × Int
  blocks : List ((Int × Int × Int) × String)
deriving DecidableEq

/-- The distance test the Rust code applies, at src/main.rs lines 37 to 41
to the region origin and at lines 56 to 60 to the chunk origin: when a
filter is configured, a point is rejected when its squared horizontal
distance from the filter origin exceeds the square of the maximal
distance; without a filter nothing is rejected. -/
def distanceRejects (filter : Option ((Int × Int) × Int)) (x z : Int) : Bool :=
  match filter with
  | some ((fromX, fromZ), maxdist) =>
    decide ((x - fromX) ^ 2 + (z - fromZ) ^ 2 > maxdist ^ 2)
  | none => false

/-- The block extraction of src/main.rs lines 62 to 72: enumerate the
linear block names, keep those containing the search substring, and map
each kept index to its absolute world coordinate. -/
def foundBlocks (chunkX chunkY chunkZ : Int) (blockName : String)
    (blocks : List String) : List ((Int × Int × Int) × String) :=
  (blocks.enum.filter (fun p => strContains p.2 blockName)).map
    (fun p =>
      ((chunkX + (p.1 : Int) % 16,
        chunkY + (p.1 : Int) / (16 * 16),
        chunkZ + ((p.1 : Int) / 16) % 16), p.2))

/-- Per-chunk body of the loop at src/main.rs lines 46 to 80: skip chunks
whose status is not minecraft:full, compute the chunk world origin, skip
chunks rejected by the distance filter, extract the matching blocks and
keep the chunk only when at least one block matched. -/
def scanChunk (regionX regionZ : Int) (blockName : String)
    (filter : Option ((Int × Int) × Int)) (c : DecodedChunk) : Option BlockResults :=
  if c.status ≠ "minecraft:full" then none
  else
    let chunkX := regionX + (c.x : Int) * 16
    let chunkZ := regionZ + (c.z : Int) * 16
    let chunkY := c.yStart
    if distanceRejects filter chunkX chunkZ then none
    else
      let found := foundBlocks chunkX chunkY chunkZ blockName c.blocks
      if found.isEmpty then none
      else some ⟨(chunkX, chunkY, chunkZ), found⟩

/-- Rust function find_blocks, src/main.rs lines 28 to 83.  The decode of
the on-disk stream is the external library boundary, so the region
argument is the list of chunks the decoder yields; everything the Rust
function does with them is reproduced: resolve the region origin from the
filename, return an empty result list at once when the region origin is
rejected by the distance filter, otherwise scan every chunk. -/
def find_blocks (filename : String) (region : List DecodedChunk)
    (blockName : String) (filter : Option ((Int × Int) × Int)) :
    Except String (List BlockResults) :=
  match region_coordinates filename with
  | Except.error e => Except.error e
  | Except.ok (regionX, regionZ) =>
    if distanceRejects filter regionX regionZ then Except.ok []
    else Except.ok (region.filterMap (scanChunk regionX regionZ blockName filter))

/-! ### The result post-processing of main, src/main.rs lines 152 to 176 -/

/-- Sort key used at src/main.rs line 156: squared horizontal distance of
the chunk origin from the configured home point. -/
def sortKey (homeX homeZ : Int) (r : BlockResults) : Int :=
  (r.chunk.1 - homeX) ^ 2 + (r.chunk.2.2 - homeZ) ^ 2

/-- Sorting step of src/main.rs lines 154 to 157: when a home point is
configured the collected results are sorted by a stable sort ascending on
the squared distance key, otherwise they are left untouched.  The stable
Rust slice sort is modelled by insertion sort on the non-strict key order,
which produces the identical list for any stable sort. -/
def sortResults (home : Option (Int × Int)) (rs : List BlockResults) : List BlockResults :=
  match home with
  | none => rs
  | some (homeX, homeZ) =>
    rs.insertionSort (fun a b => sortKey homeX homeZ a ≤ sortKey homeX homeZ b)

/-- One step of the counting fold of src/main.rs lines 165 to 171: bump
the count stored for a key.  The Rust code uses a hash map; the embedding
uses an association list keyed by first insertion, whose key-count pairs
are exactly the entries of the hash map (only the iteration order of the
hash map is unspecified, and no claim depends on it). -/
def bumpCount : List (String × Nat) → String → List (String × Nat)
  | [], n => [(n, 1)]
  | (k, c) :: rest, n =>
    if k = n then (k, c + 1) :: rest else (k, c) :: bumpCount rest n

/-- The grouped counts of one chunk result, src/main.rs lines 165 to 171:
fold over the matches, incrementing the count of each block name. -/
def blockCounts (blocks : List ((Int × Int × Int) × String)) : List (String × Nat) :=
  blocks.foldl (fun acc b => bumpCount acc b.2) []

/-- Count stored for a name in an association list of counts. -/
def countIn : List (String × Nat) → String → Nat
  | [], _ => 0
  | (k, c) :: rest, n => if k = n then c else countIn rest n

/-- Sum of all counts in an association list of counts. -/
def entryTotal (acc : List (String × Nat)) : Nat :=
  (acc.map Prod.snd).sum

/-! ### Helper lemmas -/

/-- Chunks whose scan does not reject them are produced by the filterMap
of find_blocks; inversion of a successful find_blocks run. -/
theorem find_blocks_ok {filename : String} {region : List DecodedChunk}
    {blockName : String} {filter : Option ((Int × Int) × Int)}
    {results : List BlockResults} {r : BlockResults}
    (h : find_blocks filename region blockName filter = Except.ok results)
    (hr : r ∈ results) :
    ∃ rx rz c, region_coordinates filename = Except.ok (rx, rz)
      ∧ c ∈ region ∧ scanChunk rx rz blockName filter c = some r := by
  unfold find_blocks at h
  cases hrc : region_coordinates filename with
  | error e => rw [hrc] at h; exact absurd h (by simp)
  | ok p =>
    obtain ⟨rx, rz⟩ := p
    rw [hrc] at h
    dsimp only at h
    by_cases hrej : distanceRejects filter rx rz = true
    · rw [if_pos hrej] at h
      injection h with h
      subst h
      cases hr
    · rw [if_neg hrej] at h
      injection h with h
      subst h
      obtain ⟨c, hc, hsc⟩ := List.mem_filterMap.mp hr
      exact ⟨rx, rz, c, rfl, hc, hsc⟩

/-- Inversion of a successful chunk scan: the status was minecraft:full,
the chunk origin passed the filter, and the result bundles exactly the
found blocks under the chunk world origin. -/
theorem scanChunk_eq_some {regionX regionZ : Int} {blockName : String}
    {filter : Option ((Int × Int) × Int)} {c : DecodedChunk} {r : BlockResults}
    (h : scanChunk regionX regionZ blockName filter c = some r) :
    r.chunk = (regionX + (c.x : Int) * 16, c.yStart, regionZ + (c.z : Int) * 16)
    ∧ r.blocks = foundBlocks (regionX + (c.x : Int) * 16) c.yStart
        (regionZ + (c.z : Int) * 16) blockName c.blocks
    ∧ c.status = "minecraft:full"
    ∧ distanceRejects filter (regionX + (c.x : Int) * 16) (regionZ + (c.z : Int) * 16) = false := by
  unfold scanChunk at h
  by_cases h1 : c.status ≠ "minecraft:full"
  · rw [if_pos h1] at h
    cases h
  · rw [if_neg h1] at h
    by_cases h2 : distanceRejects filter (regionX + (c.x : Int) * 16)
        (regionZ + (c.z : Int) * 16) = true
    · rw [if_pos h2] at h
      cases h
    · rw [if_neg h2] at h
      by_cases h3 : (foundBlocks (regionX + (c.x : Int) * 16) c.yStart
          (regionZ + (c.z : Int) * 16) blockName c.blocks).isEmpty = true
      · rw [if_pos h3] at h
        cases h
      · rw [if_neg h3] at h
        injection h with h
        subst h
        refine ⟨rfl, rfl, not_not.mp h1, ?_⟩
        simpa using h2

/-- The scan of two filters agreeing on every point agrees on every chunk. -/
theorem scanChunk_filter_congr {f1 f2 : Option ((Int × Int) × Int)}
    (h : ∀ x z, distanceRejects f1 x z = distanceRejects f2 x z)
    (regionX regionZ : Int) (blockName : String) (c : DecodedChunk) :
    scanChunk regionX regionZ blockName f1 c = scanChunk regionX regionZ blockName f2 c := by
  simp only [scanChunk, h]

/-- find_blocks only consults the filter through the distance test, so two
filters agreeing on every point produce identical results. -/
theorem find_blocks_filter_congr {f1 f2 : Option ((Int × Int) × Int)}
    (h : ∀ x z, distanceRejects f1 x z = distanceRejects f2 x z)
    (filename : String) (region : List DecodedChunk) (blockName : String) :
    find_blocks filename region blockName f1 = find_blocks filename region blockName f2 := by
  unfold find_blocks
  cases hrc : region_coordinates filename with
  | error e => rfl
  | ok p =>
    obtain ⟨rx, rz⟩ := p
    have hs : scanChunk rx rz blockName f1 = scanChunk rx rz blockName f2 :=
      funext (scanChunk_filter_congr h rx rz blockName)
    simp only [h rx rz, hs]

/-- Bumping a count increases the total of the counts by one. -/
theorem entryTotal_bumpCount (acc : List (String × Nat)) (n : String) :
    entryTotal (bumpCount acc n) = entryTotal acc + 1 := by
  induction acc with
  | nil => simp [bumpCount, entryTotal]
  | cons kv rest ih =>
    obtain ⟨k, c⟩ := kv
    by_cases h : k = n
    · simp only [bumpCount, h, if_true, entryTotal, List.map_cons, List.sum_cons]
      omega
    · simp only [bumpCount, h, if_false, entryTotal, List.map_cons, List.sum_cons] at ih ⊢
      omega

/-- Bumping the count of one name reads back as adding one for that name. -/
theorem countIn_bumpCount (acc : List (String × Nat)) (b n : String) :
    countIn (bumpCount acc b) n = countIn acc n + (if b = n then 1 else 0) := by
  induction acc with
  | nil => by_cases h : b = n <;> simp [bumpCount, countIn, h]
  | cons kv rest ih =>
    obtain ⟨k, c⟩ := kv
    by_cases hk : k = b
    · subst hk
      by_cases hn : k = n <;> simp [bumpCount, countIn, hn]
    · by_cases hn : k = n
      · subst hn
        have hb : b ≠ k := fun hkb => hk hkb.symm
        simp [bumpCount, countIn, hk, hb, Ne.symm hk]
      · simp [bumpCount, countIn, hk, hn, ih]

/-- Folding the counting step over a match list adds the length of the
list to the total of the accumulator. -/
theorem entryTotal_foldl (blocks : List ((Int × Int × Int) × String))
    (acc : List (String × Nat)) :
    entryTotal (blocks.foldl (fun acc b => bumpCount acc b.2) acc)
      = entryTotal acc + blocks.length := by
  induction blocks generalizing acc with
  | nil => simp
  | cons b rest ih =>
    simp only [List.foldl_cons, List.length_cons, ih, entryTotal_bumpCount]
    omega

/-- Folding the counting step over a match list adds, for each name, the
number of matches with that name. -/
theorem countIn_foldl (blocks : List ((Int × Int × Int) × String))
    (acc : List (String × Nat)) (n : String) :
    countIn (blocks.foldl (fun acc b => bumpCount acc b.2) acc) n
      = countIn acc n + (blocks.filter (fun m => decide (m.2 = n))).length := by
  induction blocks generalizing acc with
  | nil => simp
  | cons b rest ih =>
    simp only [List.foldl_cons, ih, countIn_bumpCount]
    by_cases h : b.2 = n
    · simp [List.filter_cons, h]
      omega
    · simp [List.filter_cons, h]

/-! ### Claim theorems -/

/-- C5: the distance predicate is exact squared-distance comparison: a
point passes exactly when the squared horizontal offset from the origin is
at most the square of max_distance; with no filter configured every point
passes; and with max_distance zero only the origin itself passes. -/
theorem distance_predicate_exact (x z fromX fromZ m : Int) :
    (distanceRejects (some ((fromX, fromZ), m)) x z = false ↔
      (x - fromX) ^ 2 + (z - fromZ) ^ 2 ≤ m ^ 2)
    ∧ distanceRejects none x z = false
    ∧ (distanceRejects (some ((fromX, fromZ), 0)) x z = false ↔ x = fromX ∧ z = fromZ) := by
  refine ⟨by simp [distanceRejects], rfl, ?_⟩
  simp only [distanceRejects, decide_eq_false_iff_not, not_lt]
  constructor
  · intro hle
    have hx := sq_nonneg (x - fromX)
    have hz := sq_nonneg (z - fromZ)
    have hx0 : (x - fromX) ^ 2 = 0 := le_antisymm (by nlinarith) hx
    have hz0 : (z - fromZ) ^ 2 = 0 := le_antisymm (by nlinarith) hz
    constructor
    · have := (pow_eq_zero_iff two_ne_zero).mp hx0
      linarith [sub_eq_zero.mp this]
    · have := (pow_eq_zero_iff two_ne_zero).mp hz0
      linarith [sub_eq_zero.mp this]
  · rintro ⟨rfl, rfl⟩
    simp

/-- C10: the distance bound is sign-insensitive because the code squares
max_distance: the filter with a negated bound rejects exactly the same
points, and find_blocks returns identical results for the two filters; the
quantification over every integer bound also witnesses that no
non-negativity restriction on max_distance is checked anywhere. -/
theorem negated_max_distance_same_results (fromX fromZ m : Int) :
    (∀ x z, distanceRejects (some ((fromX, fromZ), -m)) x z
      = distanceRejects (some ((fromX, fromZ), m)) x z)
    ∧ ∀ filename region blockName,
        find_blocks filename region blockName (some ((fromX, fromZ), -m))
          = find_blocks filename region blockName (some ((fromX, fromZ), m)) := by
  have hm : (-m) ^ 2 = m ^ 2 := by ring
  have hpt : ∀ x z, distanceRejects (some ((fromX, fromZ), -m)) x z
      = distanceRejects (some ((fromX, fromZ), m)) x z := by
    intro x z
    simp [distanceRejects, hm]
  exact ⟨hpt, fun filename region blockName =>
    find_blocks_filter_congr hpt filename region blockName⟩

/-- C6: when a distance filter is configured and the region origin fails
it, find_blocks returns an empty result list whatever chunks the file
contains — the decoded content is never consulted, which is the embedded
form of the short-circuit before any chunk decode in the Rust code. -/
theorem region_prune_short_circuit (filename : String) (rx rz : Int)
    (f : (Int × Int) × Int)
    (hcoords : region_coordinates filename = Except.ok (rx, rz))
    (hrej : distanceRejects (some f) rx rz = true) :
    ∀ region blockName, find_blocks filename region blockName (some f) = Except.ok [] := by
  intro region blockName
  unfold find_blocks
  rw [hcoords]
  dsimp only
  rw [if_pos hrej]

/-- Witness for C6, the scenario of the design document: region file
r.0.0.mca, max_distance 10, origin (1000, 1000) gives an empty result even
though the file contains a matching block. -/
theorem region_prune_short_circuit_witness :
    region_coordinates "r.0.0.mca" = Except.ok (0, 0)
    ∧ distanceRejects (some ((1000, 1000), 10)) 0 0 = true
    ∧ find_blocks "r.0.0.mca"
        [⟨1, 2, "minecraft:full", -64, ["minecraft:diamond_ore"]⟩]
        "diamond_ore" (some ((1000, 1000), 10)) = Except.ok [] :=
  ⟨rfl, by decide,
    region_prune_short_circuit "r.0.0.mca" 0 0 ((1000, 1000), 10) rfl (by decide)
      [⟨1, 2, "minecraft:full", -64, ["minecraft:diamond_ore"]⟩] "diamond_ore"⟩

/-- C4: a chunk whose status is not minecraft:full is skipped as normal
control flow: removing it from the region leaves the result of find_blocks
unchanged, so it contributes no chunk result and no block match even when
its blocks contain the search substring. -/
theorem non_full_chunk_contributes_nothing (filename : String)
    (l1 l2 : List DecodedChunk) (c : DecodedChunk)
    (hstatus : c.status ≠ "minecraft:full")
    (blockName : String) (filter : Option ((Int × Int) × Int)) :
    find_blocks filename (l1 ++ c :: l2) blockName filter
      = find_blocks filename (l1 ++ l2) blockName filter := by
  unfold find_blocks
  cases hrc : region_coordinates filename with
  | error e => rfl
  | ok p =>
    obtain ⟨rx, rz⟩ := p
    dsimp only
    by_cases hrej : distanceRejects filter rx rz = true
    · rw [if_pos hrej, if_pos hrej]
    · rw [if_neg hrej, if_neg hrej]
      have hc : scanChunk rx rz blockName filter c = none := by
        unfold scanChunk
        rw [if_pos hstatus]
      rw [List.filterMap_append, List.filterMap_append, List.filterMap_cons, hc]

/-- Witness for C4: a chunk with status minecraft:empty holding a diamond
ore block contributes nothing. -/
theorem non_full_chunk_contributes_nothing_witness :
    (("minecraft:empty" : String) ≠ "minecraft:full")
    ∧ find_blocks "r.0.0.mca"
        [⟨0, 0, "minecraft:empty", -64, ["minecraft:diamond_ore"]⟩] "diamond" none
      = find_blocks "r.0.0.mca" [] "diamond" none :=
  ⟨by decide,
    non_full_chunk_contributes_nothing "r.0.0.mca" [] []
      ⟨0, 0, "minecraft:empty", -64, ["minecraft:diamond_ore"]⟩ (by decide) "diamond" none⟩

/-- C8: the grouped-count output partitions the matches of a chunk by
exact block name — the count emitted for each name equals the number of
matches carrying that name — and the total of the counts equals the number
of matches the show_all listing would print (one line per match); the
concrete conjunct is the scenario with three oak_log and one spruce_log
matches yielding exactly the two entries with counts 3 and 1. -/
theorem grouped_counts_partition (blocks : List ((Int × Int × Int) × String)) (n : String) :
    entryTotal (blockCounts blocks) = blocks.length
    ∧ countIn (blockCounts blocks) n = (blocks.filter (fun m => decide (m.2 = n))).length
    ∧ blockCounts [((0, 0, 0), "oak_log"), ((1, 0, 0), "oak_log"),
        ((2, 0, 0), "oak_log"), ((3, 0, 0), "spruce_log")]
      = [("oak_log", 3), ("spruce_log", 1)] := by
  refine ⟨?_, ?_, by decide⟩
  · have := entryTotal_foldl blocks []
    simpa [blockCounts, entryTotal] using this
  · have := countIn_foldl blocks [] n
    simpa [blockCounts, countIn] using this

/-- C3 counterexample: region-level pruning is not conservative.  With
filter origin (496, 0) and max_distance 0, the chunk at local (31, 0) of
region r.0.0.mca has world origin (496, 0), which passes the chunk-level
test, yet the region origin (0, 0) fails the same test, so find_blocks
discards the whole file and the passing chunk with its matching block is
lost. -/
theorem region_prune_not_conservative :
    distanceRejects (some ((496, 0), 0)) 496 0 = false
    ∧ distanceRejects (some ((496, 0), 0)) 0 0 = true
    ∧ find_blocks "r.0.0.mca" [⟨31, 0, "minecraft:full", -64, ["minecraft:diamond_ore"]⟩]
        "diamond_ore" (some ((496, 0), 0)) = Except.ok []
    ∧ find_blocks "r.0.0.mca" [⟨31, 0, "minecraft:full", -64, ["minecraft:diamond_ore"]⟩]
        "diamond_ore" none
      = Except.ok [⟨(496, -64, 0), [((496, -64, 0), "minecraft:diamond_ore")]⟩] :=
  ⟨by decide, by decide, rfl, rfl⟩

/-- C3 amended: the region test accepts a superset of the chunk tests only
up to the size of a region: if a chunk at local coordinates (a, b) with
a, b < 32 passes the distance filter with bound m ≥ 0, then the region
origin passes the filter with bound m + 992 (992 = 2 * 31 * 16); with the
same bound on both tests, the code loses chunks, as the counterexample
shows. -/
theorem region_prune_conservative_with_slack
    (fromX fromZ m rx rz : Int) (a b : Nat)
    (ha : a ≤ 31) (hb : b ≤ 31) (hm : 0 ≤ m)
    (hchunk : distanceRejects (some ((fromX, fromZ), m))
        (rx + (a : Int) * 16) (rz + (b : Int) * 16) = false) :
    distanceRejects (some ((fromX, fromZ), m + 992)) rx rz = false := by
  simp only [distanceRejects, decide_eq_false_iff_not, not_lt] at hchunk ⊢
  have hA : (0 : Int) ≤ (a : Int) := Int.natCast_nonneg a
  have hB : (0 : Int) ≤ (b : Int) := Int.natCast_nonneg b
  have hA31 : (a : Int) ≤ 31 := by exact_mod_cast ha
  have hB31 : (b : Int) ≤ 31 := by exact_mod_cast hb
  have h1 : rx + (a : Int) * 16 - fromX ≤ m := by
    nlinarith [sq_nonneg (rz + (b : Int) * 16 - fromZ)]
  have h2 : -m ≤ rx + (a : Int) * 16 - fromX := by
    nlinarith [sq_nonneg (rz + (b : Int) * 16 - fromZ)]
  have h3 : rz + (b : Int) * 16 - fromZ ≤ m := by
    nlinarith [sq_nonneg (rx + (a : Int) * 16 - fromX)]
  have h4 : -m ≤ rz + (b : Int) * 16 - fromZ := by
    nlinarith [sq_nonneg (rx + (a : Int) * 16 - fromX)]
  nlinarith [hchunk,
    mul_nonneg hA (by linarith : (0 : Int) ≤ m + (rx + (a : Int) * 16 - fromX)),
    mul_nonneg hB (by linarith : (0 : Int) ≤ m + (rz + (b : Int) * 16 - fromZ)),
    mul_nonneg hm (by linarith : (0 : Int) ≤ 31 - (a : Int)),
    mul_nonneg hm (by linarith : (0 : Int) ≤ 31 - (b : Int)),
    mul_nonneg hA (by linarith : (0 : Int) ≤ 31 - (a : Int)),
    mul_nonneg hB (by linarith : (0 : Int) ≤ 31 - (b : Int))]

/-- Witness for the amended C3 at the counterexample configuration: the
chunk at local (31, 0) passes with bound 0, and the region origin passes
with bound 0 + 992. -/
theorem region_prune_conservative_with_slack_witness :
    distanceRejects (some ((496, 0), 0))
        ((0 : Int) + ((31 : Nat) : Int) * 16) ((0 : Int) + ((0 : Nat) : Int) * 16) = false
    ∧ distanceRejects (some ((496, 0), 0 + 992)) 0 0 = false :=
  ⟨by decide,
    region_prune_conservative_with_slack 496 0 0 0 0 31 0 le_rfl (by decide) le_rfl (by decide)⟩

/-- Every member of a foundBlocks list is the image of some linear index. -/
theorem mem_foundBlocks {chunkX chunkY chunkZ : Int} {blockName : String}
    {blocks : List String} {mtch : (Int × Int × Int) × String}
    (h : mtch ∈ foundBlocks chunkX chunkY chunkZ blockName blocks) :
    ∃ i : Nat, mtch.1 = (chunkX + (i : Int) % 16, chunkY + (i : Int) / (16 * 16),
      chunkZ + ((i : Int) / 16) % 16) := by
  unfold foundBlocks at h
  obtain ⟨p, _, hEq⟩ := List.mem_map.mp h
  exact ⟨p.1, by rw [← hEq]⟩

/-- A block at a linear index whose name contains the search substring is
listed by foundBlocks at the coordinate decoded from its index. -/
theorem foundBlocks_mem {chunkX chunkY chunkZ : Int} {blockName : String}
    {blocks : List String} {i : Nat} {name : String}
    (hget : blocks[i]? = some name) (hcont : strContains name blockName = true) :
    ((chunkX + (i : Int) % 16, chunkY + (i : Int) / (16 * 16),
      chunkZ + ((i : Int) / 16) % 16), name)
      ∈ foundBlocks chunkX chunkY chunkZ blockName blocks := by
  unfold foundBlocks
  apply List.mem_map.mpr
  refine ⟨(i, name), ?_, rfl⟩
  apply List.mem_filter.mpr
  exact ⟨List.mk_mem_enum_iff_getElem?.mpr hget, hcont⟩

/-- C9: containment invariant.  Every block match reported inside a chunk
result of find_blocks lies in the 16 by 16 column of that chunk: its x and
z coordinates lie in the half-open 16-block interval starting at the chunk
origin and its y coordinate is at least the chunk origin y. -/
theorem match_inside_reporting_chunk (filename : String) (region : List DecodedChunk)
    (blockName : String) (filter : Option ((Int × Int) × Int))
    (results : List BlockResults) (r : BlockResults)
    (mtch : (Int × Int × Int) × String)
    (hres : find_blocks filename region blockName filter = Except.ok results)
    (hr : r ∈ results) (hm : mtch ∈ r.blocks) :
    r.chunk.1 ≤ mtch.1.1 ∧ mtch.1.1 < r.chunk.1 + 16
    ∧ r.chunk.2.2 ≤ mtch.1.2.2 ∧ mtch.1.2.2 < r.chunk.2.2 + 16
    ∧ r.chunk.2.1 ≤ mtch.1.2.1 := by
  obtain ⟨rx, rz, c, _, _, hsc⟩ := find_blocks_ok hres hr
  obtain ⟨hchunk, hblocks, _, _⟩ := scanChunk_eq_some hsc
  rw [hblocks] at hm
  obtain ⟨i, hcoord⟩ := mem_foundBlocks hm
  rw [hchunk, hcoord]
  dsimp only
  have hmod16 : 0 ≤ (i : Int) % 16 ∧ (i : Int) % 16 < 16 :=
    ⟨Int.emod_nonneg _ (by norm_num), Int.emod_lt_of_pos _ (by norm_num)⟩
  have hmod16z : 0 ≤ ((i : Int) / 16) % 16 ∧ ((i : Int) / 16) % 16 < 16 :=
    ⟨Int.emod_nonneg _ (by norm_num), Int.emod_lt_of_pos _ (by norm_num)⟩
  have hdiv : 0 ≤ (i : Int) / (16 * 16) :=
    Int.ediv_nonneg (Int.natCast_nonneg i) (by norm_num)
  refine ⟨by linarith [hmod16.1], by linarith [hmod16.2],
    by linarith [hmod16z.1], by linarith [hmod16z.2], by linarith [hdiv]⟩

/-- Witness for C9 at a concrete run: the single reported diamond ore
match lies inside the column of its chunk. -/
theorem match_inside_reporting_chunk_witness :
    ((16 : Int), -64, 32) = ((16 : Int), -64, 32)
    ∧ ((16 : Int) ≤ 21 ∧ (21 : Int) < 16 + 16 ∧ (32 : Int) ≤ 32 ∧ (32 : Int) < 32 + 16
        ∧ (-64 : Int) ≤ -64) := by
  have h := match_inside_reporting_chunk "r.0.0.mca"
    [⟨1, 2, "minecraft:full", -64,
      ["minecraft:air", "minecraft:air", "minecraft:air", "minecraft:air",
       "minecraft:air", "minecraft:diamond_ore"]⟩]
    "diamond_ore" none
    [⟨(16, -64, 32), [((21, -64, 32), "minecraft:diamond_ore")]⟩]
    ⟨(16, -64, 32), [((21, -64, 32), "minecraft:diamond_ore")]⟩
    ((21, -64, 32), "minecraft:diamond_ore")
    rfl (by decide) (by decide)
  exact ⟨rfl, h⟩

/-- C1: every block of a scanned fully generated chunk whose name contains
the search substring is reported, with the absolute world coordinate
obtained by decoding its linear index i as an offset
(i mod 16, i div 256, (i div 16) mod 16) from the chunk world origin
(region x plus 16 times the local chunk x, the start of the vertical
range, region z plus 16 times the local chunk z). -/
theorem find_blocks_reports_matching_block
    (filename : String) (region : List DecodedChunk) (blockName : String)
    (filter : Option ((Int × Int) × Int)) (rx rz : Int) (c : DecodedChunk)
    (i : Nat) (name : String) (results : List BlockResults)
    (hrc : region_coordinates filename = Except.ok (rx, rz))
    (hregion : distanceRejects filter rx rz = false)
    (hres : find_blocks filename region blockName filter = Except.ok results)
    (hc : c ∈ region)
    (hstat : c.status = "minecraft:full")
    (hchunkpass : distanceRejects filter (rx + (c.x : Int) * 16) (rz + (c.z : Int) * 16) = false)
    (hname : c.blocks[i]? = some name)
    (hcontains : strContains name blockName = true) :
    ∃ r ∈ results,
      r.chunk = (rx + (c.x : Int) * 16, c.yStart, rz + (c.z : Int) * 16)
      ∧ ((rx + (c.x : Int) * 16 + (i : Int) % 16,
          c.yStart + (i : Int) / 256,
          rz + (c.z : Int) * 16 + ((i : Int) / 16) % 16), name) ∈ r.blocks := by
  have h256 : (256 : Int) = 16 * 16 := by norm_num
  have hmem : ((rx + (c.x : Int) * 16 + (i : Int) % 16,
      c.yStart + (i : Int) / (16 * 16),
      rz + (c.z : Int) * 16 + ((i : Int) / 16) % 16), name)
      ∈ foundBlocks (rx + (c.x : Int) * 16) c.yStart (rz + (c.z : Int) * 16)
          blockName c.blocks :=
    foundBlocks_mem hname hcontains
  have hne : (foundBlocks (rx + (c.x : Int) * 16) c.yStart (rz + (c.z : Int) * 16)
      blockName c.blocks).isEmpty = false := by
    have := List.ne_nil_of_mem hmem
    cases hemp : (foundBlocks (rx + (c.x : Int) * 16) c.yStart (rz + (c.z : Int) * 16)
        blockName c.blocks).isEmpty
    · rfl
    · exact absurd (List.isEmpty_iff.mp hemp) this
  have hscan : scanChunk rx rz blockName filter c
      = some ⟨(rx + (c.x : Int) * 16, c.yStart, rz + (c.z : Int) * 16),
          foundBlocks (rx + (c.x : Int) * 16) c.yStart (rz + (c.z : Int) * 16)
            blockName c.blocks⟩ := by
    unfold scanChunk
    rw [if_neg (by simp [hstat]), if_neg (by simp [hchunkpass]), if_neg (by simp [hne])]
  have hfm : find_blocks filename region blockName filter
      = Except.ok (region.filterMap (scanChunk rx rz blockName filter)) := by
    unfold find_blocks
    rw [hrc]
    dsimp only
    rw [if_neg (by simp [hregion])]
  rw [hfm] at hres
  injection hres with hres
  refine ⟨⟨(rx + (c.x : Int) * 16, c.yStart, rz + (c.z : Int) * 16),
    foundBlocks (rx + (c.x : Int) * 16) c.yStart (rz + (c.z : Int) * 16)
      blockName c.blocks⟩, ?_, rfl, ?_⟩
  · rw [← hres]
    exact List.mem_filterMap.mpr ⟨c, hc, hscan⟩
  · rw [h256]
    exact hmem

/-- Witness for C1, the scenario of the design document: one fully
generated chunk at local (1, 2) with minecraft:diamond_ore at linear index
5, searched for diamond_ore without a filter, is reported at (21, -64, 32)
in the chunk with origin (16, -64, 32). -/
theorem find_blocks_reports_matching_block_witness :
    ∃ r ∈ [BlockResults.mk (16, -64, 32) [((21, -64, 32), "minecraft:diamond_ore")]],
      r.chunk = ((16 : Int), -64, 32)
      ∧ (((21 : Int), (-64 : Int), (32 : Int)), "minecraft:diamond_ore") ∈ r.blocks := by
  have h := find_blocks_reports_matching_block "r.0.0.mca"
    [⟨1, 2, "minecraft:full", -64,
      ["minecraft:air", "minecraft:air", "minecraft:air", "minecraft:air",
       "minecraft:air", "minecraft:diamond_ore"]⟩]
    "diamond_ore" none 0 0
    ⟨1, 2, "minecraft:full", -64,
      ["minecraft:air", "minecraft:air", "minecraft:air", "minecraft:air",
       "minecraft:air", "minecraft:diamond_ore"]⟩
    5 "minecraft:diamond_ore"
    [⟨(16, -64, 32), [((21, -64, 32), "minecraft:diamond_ore")]⟩]
    rfl rfl (by rfl) (by decide) rfl rfl rfl (by decide)
  obtain ⟨r, hrmem, hchunk2, hmem2⟩ := h
  norm_num at hchunk2 hmem2
  exact ⟨r, hrmem, hchunk2, hmem2⟩

/-- C7: with an origin configured, the post-processor sorts the chunk
results ascending by squared horizontal distance of the chunk origin from
the home point; the sort is a permutation of its input; it is stable, in
the sense that any key-sorted sublist of the input (in particular any pair
of equidistant results in encounter order) is still a sublist of the
output; and in the concrete scenario, the chunk at squared distance 25 is
emitted before the chunk at squared distance 400. -/
theorem postprocessor_sorts_by_distance (homeX homeZ : Int) (rs c : List BlockResults)
    (hsub : c.Sublist rs)
    (hpair : c.Pairwise (fun a b => sortKey homeX homeZ a ≤ sortKey homeX homeZ b)) :
    List.Sorted (fun a b => sortKey homeX homeZ a ≤ sortKey homeX homeZ b)
        (sortResults (some (homeX, homeZ)) rs)
    ∧ (sortResults (some (homeX, homeZ)) rs).Perm rs
    ∧ c.Sublist (sortResults (some (homeX, homeZ)) rs)
    ∧ sortResults (some (0, 0))
        [⟨(20, 0, 0), [((20, 0, 0), "a")]⟩, ⟨(3, 0, 4), [((3, 0, 4), "b")]⟩]
      = [⟨(3, 0, 4), [((3, 0, 4), "b")]⟩, ⟨(20, 0, 0), [((20, 0, 0), "a")]⟩] := by
  haveI : IsTotal BlockResults (fun a b => sortKey homeX homeZ a ≤ sortKey homeX homeZ b) :=
    ⟨fun a b => Int.le_total _ _⟩
  haveI : IsTrans BlockResults (fun a b => sortKey homeX homeZ a ≤ sortKey homeX homeZ b) :=
    ⟨fun _ _ _ hab hbc => le_trans hab hbc⟩
  exact ⟨List.sorted_insertionSort _ rs, List.perm_insertionSort _ rs,
    List.sublist_insertionSort hpair hsub, by decide⟩

/-- Witness for C7: the pair of results at squared distances 400 and 25,
taken in sorted order, stays a sublist of the sorted output. -/
theorem postprocessor_sorts_by_distance_witness :
    ([⟨(3, 0, 4), [((3, 0, 4), "b")]⟩] : List BlockResults).Sublist
      (sortResults (some (0, 0))
        [⟨(20, 0, 0), [((20, 0, 0), "a")]⟩, ⟨(3, 0, 4), [((3, 0, 4), "b")]⟩]) :=
  (postprocessor_sorts_by_distance 0 0
    [⟨(20, 0, 0), [((20, 0, 0), "a")]⟩, ⟨(3, 0, 4), [((3, 0, 4), "b")]⟩]
    [⟨(3, 0, 4), [((3, 0, 4), "b")]⟩]
    ((List.Sublist.refl _).cons _) (List.pairwise_singleton _ _)).2.2.1

/-! ### Lemmas on the regex matcher for well-formed filenames -/

/-- Taking while a predicate holds stops exactly at a sentinel failing it. -/
theorem takeWhile_append_sentinel {p : Char → Bool} {l1 l2 : List Char} {c : Char}
    (h : ∀ a ∈ l1, p a = true) (hc : p c = false) :
    (l1 ++ c :: l2).takeWhile p = l1 := by
  induction l1 with
  | nil => simp [List.takeWhile_cons, hc]
  | cons a as ih =>
    have ha : p a = true := h a (List.mem_cons_self a as)
    simp [List.takeWhile_cons, ha, ih (fun x hx => h x (List.mem_cons_of_mem a hx))]

/-- Dropping while a predicate holds stops exactly at a sentinel failing it. -/
theorem dropWhile_append_sentinel {p : Char → Bool} {l1 l2 : List Char} {c : Char}
    (h : ∀ a ∈ l1, p a = true) (hc : p c = false) :
    (l1 ++ c :: l2).dropWhile p = c :: l2 := by
  induction l1 with
  | nil => simp [List.dropWhile_cons, hc]
  | cons a as ih =>
    have ha : p a = true := h a (List.mem_cons_self a as)
    simp [List.dropWhile_cons, ha, ih (fun x hx => h x (List.mem_cons_of_mem a hx))]

/-- On a nonempty digit run followed by exactly the closing literal, the
digit matcher returns the whole run. -/
theorem matchDigitsDot_exact {d : List Char} (hne : d.isEmpty = false)
    (hd : ∀ a ∈ d, a.isDigit = true) :
    matchDigitsDot (d ++ ['.', 'm', 'c', 'a']) = some d := by
  have ht : (d ++ '.' :: ['m', 'c', 'a']).takeWhile Char.isDigit = d :=
    takeWhile_append_sentinel hd (by decide)
  have hdr : (d ++ '.' :: ['m', 'c', 'a']).dropWhile Char.isDigit = '.' :: ['m', 'c', 'a'] :=
    dropWhile_append_sentinel hd (by decide)
  simp only [matchDigitsDot, ht, hdr, hne, Bool.false_eq_true, if_false,
    show leadsWith ['.', 'm', 'c', 'a'] ('.' :: ['m', 'c', 'a']) = true from by decide, if_true]

/-- A digit is not a minus sign. -/
theorem ne_dash_of_digit {c : Char} (hc : c.isDigit = true) : ¬(c = '-') := by
  intro h
  subst h
  exact absurd hc (by decide)

/-- On an optionally signed nonempty digit run followed by exactly the
closing literal, the group-two matcher returns the signed run. -/
theorem matchTail2_exact {sign d : List Char} (hsign : sign = [] ∨ sign = ['-'])
    (hne : d.isEmpty = false) (hd : ∀ a ∈ d, a.isDigit = true) :
    matchTail2 ((sign ++ d) ++ ['.', 'm', 'c', 'a']) = some (sign ++ d) := by
  rcases hsign with rfl | rfl
  · obtain ⟨c, d', rfl⟩ : ∃ c d', d = c :: d' := by
      cases d with
      | nil => cases hne
      | cons c d' => exact ⟨c, d', rfl⟩
    have hcd : c.isDigit = true := hd c (List.mem_cons_self c d')
    simp only [List.nil_append, List.cons_append, matchTail2, if_neg (ne_dash_of_digit hcd)]
    exact matchDigitsDot_exact hne hd
  · simp only [List.cons_append, List.nil_append, matchTail2, if_pos rfl]
    rw [show d ++ '.' :: 'm' :: 'c' :: 'a' :: [] = d ++ ['.', 'm', 'c', 'a'] from rfl,
      matchDigitsDot_exact hne hd]
    rfl

/-- The arbitrary-character element of the pattern accepts the second dot
of a well-formed filename. -/
theorem contAfterG1_dot {X : List Char} : contAfterG1 ('.' :: X) = matchTail2 X := by
  simp only [contAfterG1, if_neg (show ¬(('.' : Char) = '\n') from by decide)]

/-- When the continuation already succeeds after the full digit run, the
greedy backtracking of group one returns the full run at once. -/
theorem tryG1_of_cont {digs rest c2 : List Char}
    (hne : digs.isEmpty = false) (hcont : contAfterG1 rest = some c2) :
    tryG1 digs rest = some (digs, c2) := by
  obtain ⟨d, ds, rfl⟩ : ∃ d ds, digs = d :: ds := by
    cases digs with
    | nil => cases hne
    | cons d ds => exact ⟨d, ds, rfl⟩
  simp only [tryG1, List.length_cons, List.range_succ_eq_map, List.findSome?_cons,
    Nat.sub_zero, List.drop_succ_cons, List.drop_length, List.nil_append,
    List.take_succ_cons, List.take_length, hcont]
  rfl

/-- The group-one matcher on a well-formed remainder returns the signed
digit run of group one and the capture of group two. -/
theorem matchG1_exact {sign d1 X c2 : List Char}
    (hsign : sign = [] ∨ sign = ['-'])
    (hne : d1.isEmpty = false) (hd : ∀ a ∈ d1, a.isDigit = true)
    (hcont : matchTail2 X = some c2) :
    matchG1 ((sign ++ d1) ++ '.' :: X) = some (sign ++ d1, c2) := by
  have htake : (d1 ++ '.' :: X).takeWhile Char.isDigit = d1 :=
    takeWhile_append_sentinel hd (by decide)
  have hdropw : (d1 ++ '.' :: X).dropWhile Char.isDigit = '.' :: X :=
    dropWhile_append_sentinel hd (by decide)
  have htry : tryG1 d1 ('.' :: X) = some (d1, c2) :=
    tryG1_of_cont hne (by rw [contAfterG1_dot, hcont])
  rcases hsign with rfl | rfl
  · obtain ⟨c, d', rfl⟩ : ∃ c d', d1 = c :: d' := by
      cases d1 with
      | nil => cases hne
      | cons c d' => exact ⟨c, d', rfl⟩
    have hcd : c.isDigit = true := hd c (List.mem_cons_self c d')
    rw [List.cons_append] at htake hdropw
    simp only [List.nil_append, List.cons_append, matchG1,
      if_neg (ne_dash_of_digit hcd), htake, hdropw, hne, Bool.false_eq_true, if_false, htry]
  · simp only [List.cons_append, List.nil_append, matchG1, if_pos rfl,
      htake, hdropw, hne, Bool.false_eq_true, if_false, htry, if_true]
    rfl

/-- The anchored matcher accepts the leading r and dot. -/
theorem matchAt_exact {s1 : List Char} {caps : List Char × List Char}
    (h : matchG1 s1 = some caps) : matchAt ('r' :: '.' :: s1) = some caps := by
  simp only [matchAt, if_pos (show (('r' : Char) = 'r' && ('.' : Char) = '.') = true from by decide)]
  exact h

/-- The unanchored search returns a match anchored at the head. -/
theorem searchMatch_cons_of_some {c : Char} {rest : List Char}
    {caps : List Char × List Char} (h : matchAt (c :: rest) = some caps) :
    searchMatch (c :: rest) = some caps := by
  unfold searchMatch
  rw [h]

/-- C2 counterexample: the separator between the two integers in the
regex is an unescaped dot, matching any character, and the pattern is
unanchored; r.1x2.mca is not of the form r.X.Z.mca yet region_coordinates
succeeds on it with (512, 1024) instead of failing with InvalidFilename.
On the same ground r.123.mca, which lacks a second integer, succeeds with
captures 1 and 3. -/
theorem region_coordinates_accepts_malformed :
    region_coordinates "r.1x2.mca" = Except.ok (512, 1024)
    ∧ region_coordinates "r.123.mca" = Except.ok (512, 1536) :=
  ⟨rfl, rfl⟩

/-- C2 amended: for every filename of the exact form r.X.Z.mca, with X and
Z optionally signed decimal integer literals whose values parse within the
i32 range, region_coordinates returns (X*512, Z*512).  The failure half of
the original claim is weakened by the counterexample: strings outside the
r.X.Z.mca form can also succeed, because the separator dot in the pattern
is unescaped and the match is unanchored. -/
theorem region_coordinates_valid_filename (b1 b2 : Bool) (d1 d2 : List Char) (v1 v2 : Int)
    (hne1 : d1.isEmpty = false) (hd1 : ∀ a ∈ d1, a.isDigit = true)
    (hne2 : d2.isEmpty = false) (hd2 : ∀ a ∈ d2, a.isDigit = true)
    (hp1 : parseSignedI32 ((cond b1 ['-'] []) ++ d1) = some v1)
    (hp2 : parseSignedI32 ((cond b2 ['-'] []) ++ d2) = some v2) :
    region_coordinates (String.mk ('r' :: '.' ::
        (((cond b1 ['-'] []) ++ d1) ++ '.' :: (((cond b2 ['-'] []) ++ d2) ++ ['.', 'm', 'c', 'a']))))
      = Except.ok (v1 * 512, v2 * 512) := by
  have hs1 : (cond b1 ['-'] []) = [] ∨ (cond b1 ['-'] []) = ['-'] := by
    cases b1
    · exact Or.inl rfl
    · exact Or.inr rfl
  have hs2 : (cond b2 ['-'] []) = [] ∨ (cond b2 ['-'] []) = ['-'] := by
    cases b2
    · exact Or.inl rfl
    · exact Or.inr rfl
  have hmt2 : matchTail2 (((cond b2 ['-'] []) ++ d2) ++ ['.', 'm', 'c', 'a'])
      = some ((cond b2 ['-'] []) ++ d2) := matchTail2_exact hs2 hne2 hd2
  have hg1 : matchG1 (((cond b1 ['-'] []) ++ d1)
        ++ '.' :: (((cond b2 ['-'] []) ++ d2) ++ ['.', 'm', 'c', 'a']))
      = some ((cond b1 ['-'] []) ++ d1, (cond b2 ['-'] []) ++ d2) :=
    matchG1_exact hs1 hne1 hd1 hmt2
  have hsm : searchMatch ('r' :: '.' ::
        (((cond b1 ['-'] []) ++ d1) ++ '.' :: (((cond b2 ['-'] []) ++ d2) ++ ['.', 'm', 'c', 'a'])))
      = some ((cond b1 ['-'] []) ++ d1, (cond b2 ['-'] []) ++ d2) :=
    searchMatch_cons_of_some (matchAt_exact hg1)
  unfold region_coordinates
  rw [show (String.mk ('r' :: '.' ::
      (((cond b1 ['-'] []) ++ d1) ++ '.' :: (((cond b2 ['-'] []) ++ d2) ++ ['.', 'm', 'c', 'a'])))).data
    = 'r' :: '.' :: (((cond b1 ['-'] []) ++ d1)
        ++ '.' :: (((cond b2 ['-'] []) ++ d2) ++ ['.', 'm', 'c', 'a'])) from rfl, hsm]
  dsimp only
  rw [hp1, hp2]
  dsimp only
  have e1 : v1 * 32 * 16 = v1 * 512 := by ring
  have e2 : v2 * 32 * 16 = v2 * 512 := by ring
  rw [e1, e2]

/-- Witness for the amended C2: the filename r.-3.12.mca resolves to the
region origin (-1536, 6144). -/
theorem region_coordinates_valid_filename_witness :
    region_coordinates (String.mk ('r' :: '.' ::
        (((cond true ['-'] []) ++ ['3']) ++ '.' :: (((cond false ['-'] []) ++ ['1', '2']) ++ ['.', 'm', 'c', 'a']))))
      = Except.ok (-3 * 512, 12 * 512) :=
  region_coordinates_valid_filename true false ['3'] ['1', '2'] (-3) 12
    rfl (by decide) rfl (by decide) (by decide) (by decide)

end BlockFinder
